import Mathlib

/-!
Verification of the `rebuilder` reverse-dependency closure tool
(`src/main.rs`).

The embedding models the program's data and control flow directly:

* the pacman corpus is a list of sync databases, each holding an optional
  package list (`none` models a database whose enumeration fails);
* `get_reverse_deps_map` builds the reverse-dependency index, a map from a
  dependency name to the list of declaring packages (base name preferred);
  the Rust `HashMap` is modelled as an association list whose `entry`
  API appends to an existing entry or creates a fresh one;
* the expansion loop of `main` (lines 96-118) is a worklist over an
  explicit graph state (node labels, edge list in insertion order, the
  `cache_node` map, the `to_build` set and the `to_visit` FIFO queue);
  the loop is driven by a fuel argument that is instantiated with an
  upper bound on the number of iterations, proved sufficient below;
* the reporter (lines 120-130) runs petgraph's `Bfs` from each seed's
  cached node; petgraph yields the out-neighbours of a node in reverse
  order of edge insertion, which the model reproduces;
* the optional dot-file export (lines 132-136) is pure I/O and is not
  modelled.
-/

set_option linter.unusedVariables false

namespace Rebuilder

/-- An alpm package as observed by `main.rs`: its name, optional base
grouping name, runtime dependency names and build-time dependency names. -/
structure Package where
  name : String
  base : Option String
  depends : List String
  makedepends : List String
deriving DecidableEq

/-- A sync database: its name and its package list; `pkgs = none` models a
database for which `db.pkgs()` fails to enumerate. -/
structure SyncDb where
  dbname : String
  pkgs : Option (List Package)
deriving DecidableEq

/-- The fatal errors the run can surface: the context-wrapped enumeration
failure of `get_reverse_deps_map` (carrying the database name) and alpm's
`Error::PkgNotFound` from `find_package_anywhere` (which carries no
package name in the source). -/
inductive MainError where
  | corpusUnavailable (dbName : String)
  | pkgNotFound
deriving DecidableEq

/-- `pkg.base().unwrap_or_else(|| pkg.name())`: the identity recorded for a
dependent package. -/
def identityOf (p : Package) : String := p.base.getD p.name

/-- The reverse-dependency index, `HashMap<String, Vec<String>>` modelled as
an association list. -/
abbrev RevMap := List (String × List String)

/-- Association-list lookup (the `HashMap::get` / `HashMap::entry` probe). -/
def lookupA {α : Type} : List (String × α) → String → Option α
  | [], _ => none
  | (k, v) :: rest, key => if k = key then some v else lookupA rest key

/-- `reverse_deps.entry(k).and_modify(|e| e.push(v)).or_insert_with(|| vec![v])`:
append `v` to the entry for `k`, creating the entry if absent. -/
def insertAppend (m : RevMap) (k v : String) : RevMap :=
  match m with
  | [] => [(k, [v])]
  | (k', vs) :: rest =>
      if k' = k then (k', vs ++ [v]) :: rest else (k', vs) :: insertAppend rest k v

/-- Record one package in the index: every name in `depends`, then every
name in `makedepends`, gets this package's identity appended. -/
def indexPackage (m : RevMap) (p : Package) : RevMap :=
  let m1 := p.depends.foldl (fun acc d => insertAppend acc d (identityOf p)) m
  p.makedepends.foldl (fun acc d => insertAppend acc d (identityOf p)) m1

/-- The database scan of `get_reverse_deps_map`: fold every package of every
database into the map, aborting with the context error of the first
database whose enumeration fails. -/
def scanDbs : List SyncDb → RevMap → Except MainError RevMap
  | [], m => .ok m
  | db :: rest, m =>
    match db.pkgs with
    | none => .error (.corpusUnavailable db.dbname)
    | some ps => scanDbs rest (ps.foldl indexPackage m)

/-- `get_reverse_deps_map` (main.rs lines 28-49). -/
def get_reverse_deps_map (dbs : List SyncDb) : Except MainError RevMap :=
  scanDbs dbs []

/-- `db.pkg(pkgname)`: look a package up by name in one database. -/
def dbPkg (db : SyncDb) (n : String) : Option Package :=
  (db.pkgs.getD []).find? (fun p => p.name == n)

/-- `find_package_anywhere` (main.rs lines 16-26): first database that
resolves the name wins; otherwise `Error::PkgNotFound`. -/
def find_package_anywhere (dbs : List SyncDb) (n : String) : Except MainError Package :=
  match dbs with
  | [] => .error .pkgNotFound
  | db :: rest =>
    match dbPkg db n with
    | some p => .ok p
    | none => find_package_anywhere rest n

/-- The seed-validation loop of `main` (lines 84-86): `?`-propagate the
first lookup failure. -/
def validateSeeds (dbs : List SyncDb) : List String → Except MainError Unit
  | [] => .ok ()
  | n :: rest =>
    match find_package_anywhere dbs n with
    | .error e => .error e
    | .ok _ => validateSeeds dbs rest

/-- The mutable state of the expansion loop: the petgraph node labels (a
node's index is its position; `add_node` appends), the edge list in
insertion order (the constant weight `1` carries no information and is
dropped), the `cache_node` name→index map, the `to_build` set and the
`to_visit` FIFO queue. -/
structure GState where
  nodes : List String
  edges : List (Nat × Nat)
  cache : List (String × Nat)
  toBuild : List String
  queue : List String
deriving DecidableEq

/-- `cache_node.entry(pkg).or_insert_with(|| graph.add_node(pkg))`: return
the cached node index, creating node and cache entry on first reference. -/
def getOrAddNode (st : GState) (n : String) : Nat × GState :=
  match lookupA st.cache n with
  | some i => (i, st)
  | none =>
      (st.nodes.length,
        { st with
            nodes := st.nodes ++ [n],
            cache := st.cache ++ [(n, st.nodes.length)] })

/-- The dependent list the index holds for a name (empty when absent). -/
def depsOf (idx : RevMap) (n : String) : List String := (lookupA idx n).getD []

/-- The body of `for rev_dep in rev_deps_for_pkg` (lines 110-115): obtain or
create the dependent's node and insert the edge `root → depnode` unless it
already exists. -/
def addDepEdge (root : Nat) (st : GState) (d : String) : GState :=
  let r := getOrAddNode st d
  if (root, r.1) ∈ r.2.edges then r.2
  else { r.2 with edges := r.2.edges ++ [(root, r.1)] }

/-- One iteration of the `while !to_visit.is_empty()` loop (lines 96-118),
applied to the state after `pkg` has been popped: create/fetch `pkg`'s
node; if the index has an entry, extend the queue with the dependents when
`pkg` is not yet in `to_build`, insert the dependents' nodes and edges
unconditionally, then add all dependents to `to_build`. -/
def stepOne (idx : RevMap) (st : GState) (pkg : String) : GState :=
  let r := getOrAddNode st pkg
  match lookupA idx pkg with
  | none => r.2
  | some deps =>
      let st2 := if pkg ∈ r.2.toBuild then r.2 else { r.2 with queue := r.2.queue ++ deps }
      let st3 := deps.foldl (addDepEdge r.1) st2
      { st3 with toBuild := st3.toBuild ++ deps }

/-- Cost of one queue entry towards the termination measure: an entry whose
name is already in `to_build` can only be popped; a fresh one may in
addition enqueue its dependent list once. -/
def entryCost (idx : RevMap) (tb : List String) (x : String) : Nat :=
  if x ∈ tb then 1 else 1 + (depsOf idx x).length

/-- Termination measure of the worklist loop: total cost of the queue. -/
def phi (idx : RevMap) (st : GState) : Nat :=
  (st.queue.map (entryCost idx st.toBuild)).sum

/-- The worklist loop, driven by fuel; `runExpansion` instantiates the fuel
with the measure `phi`, which is proved to empty the queue. -/
def expandLoop (idx : RevMap) : Nat → GState → GState
  | 0, st => st
  | fuel + 1, st =>
    match st.queue with
    | [] => st
    | pkg :: rest => expandLoop idx fuel (stepOne idx { st with queue := rest } pkg)

/-- The state at line 96: empty graph, cache and `to_build`; the queue holds
the seed names in caller order. -/
def initState (seeds : List String) : GState :=
  { nodes := [], edges := [], cache := [], toBuild := [], queue := seeds }

/-- The whole expansion phase of `main` (lines 88-118). -/
def runExpansion (idx : RevMap) (seeds : List String) : GState :=
  expandLoop idx (phi idx (initState seeds)) (initState seeds)

/-- petgraph `Graph::neighbors`: out-neighbours of node `i`, in reverse
order of edge insertion (the most recently added edge is listed first). -/
def outNeighbors (st : GState) (i : Nat) : List Nat :=
  ((st.edges.filter (fun e => e.1 == i)).reverse).map (fun e => e.2)

/-- One neighbour step of petgraph `Bfs::next`: skip a discovered successor,
otherwise mark it discovered and push it on the back of the queue.
`acc.1` is the discovered set, `acc.2` the BFS queue. -/
def pushSucc (acc : List Nat × List Nat) (s : Nat) : List Nat × List Nat :=
  if s ∈ acc.1 then acc else (acc.1 ++ [s], acc.2 ++ [s])

/-- petgraph `Bfs`: pop the front node, fold its neighbours through
`pushSucc`, and emit the popped node. The fuel bounds the number of pops;
every pushed node is newly discovered, so `st.nodes.length` pops suffice. -/
def bfsAux (st : GState) : Nat → List Nat → List Nat → List Nat
  | 0, _, _ => []
  | _ + 1, [], _ => []
  | fuel + 1, x :: q, disc =>
      let acc := (outNeighbors st x).foldl pushSucc (disc, q)
      x :: bfsAux st fuel acc.2 acc.1

/-- `Bfs::new(&graph, start)` followed by the drain loop: `start` begins
discovered and queued. -/
def bfsFrom (st : GState) (start : Nat) : List Nat :=
  bfsAux st st.nodes.length [start] [start]

/-- The report loop of `main` (lines 120-130), as the list of per-seed name
lists: a seed missing from `cache_node` is skipped silently, otherwise its
line is the BFS visitation order mapped through the node labels. -/
def reportLines (st : GState) (pkgnames : List String) : List (List String) :=
  pkgnames.filterMap (fun pkg =>
    match lookupA st.cache pkg with
    | none => none
    | some i => some ((bfsFrom st i).map (fun nx => st.nodes.getD nx "")))

/-- `print!("{} ", node)` for every visited node, then `println!()`. -/
def renderLine (names : List String) : String :=
  String.join (names.map (fun n => n ++ " ")) ++ "\n"

/-- The bytes the report loop writes to stdout. -/
def renderReport (st : GState) (pkgnames : List String) : String :=
  String.join ((reportLines st pkgnames).map renderLine)

/-- `main` from the seed-validation loop on, parameterised by the already
built reverse-dependency map: the output bytes and the error, if any
(`none` output text means nothing was printed before the failure). -/
def runFromMap (dbs : List SyncDb) (m : RevMap) (pkgnames : List String) :
    String × Option MainError :=
  match validateSeeds dbs pkgnames with
  | .error e => ("", some e)
  | .ok _ => (renderReport (runExpansion m pkgnames) pkgnames, none)

/-- `main` (lines 67-139) for a given corpus and seed list: build the index,
validate the seeds, expand, report. The dot-file export (lines 132-136)
happens after all printing and is not modelled. -/
def runMain (dbs : List SyncDb) (pkgnames : List String) : String × Option MainError :=
  match get_reverse_deps_map dbs with
  | .error e => ("", some e)
  | .ok m => runFromMap dbs m pkgnames

/-! ### The reverse-dependency index builder -/

/-- The dependency occurrences of `key` inside one package: one identity
entry per occurrence, runtime dependencies before build-time ones. -/
def pkgOcc (p : Package) (key : String) : List String :=
  (p.depends ++ p.makedepends).filterMap
    (fun q => if q = key then some (identityOf p) else none)

/-- The index entry for `key` as the spec describes it (§4.1): scan every
package of every database in order and collect one identity per
dependency occurrence of `key`. -/
def specIndexEntries (dbs : List SyncDb) (key : String) : List String :=
  (dbs.flatMap (fun db => db.pkgs.getD [])).flatMap (fun p => pkgOcc p key)

theorem lookupA_getD_insertAppend (m : RevMap) (k v key : String) :
    (lookupA (insertAppend m k v) key).getD [] =
      if k = key then (lookupA m key).getD [] ++ [v] else (lookupA m key).getD [] := by
  induction m with
  | nil =>
      by_cases h : k = key <;> simp [insertAppend, lookupA, h]
  | cons hd tl ih =>
      obtain ⟨k', vs⟩ := hd
      by_cases hk : k' = k
      · subst hk
        by_cases hkey : k' = key <;> simp [insertAppend, lookupA, hkey]
      · by_cases hkey : k' = key
        · subst hkey
          have : ¬k = k' := fun h => hk h.symm
          simp [insertAppend, lookupA, hk, this]
        · simp [insertAppend, lookupA, hk, hkey, ih]

theorem lookupA_insertAppend_eq_none (m : RevMap) (k v key : String) :
    lookupA (insertAppend m k v) key = none ↔ k ≠ key ∧ lookupA m key = none := by
  induction m with
  | nil =>
      by_cases h : k = key <;> simp [insertAppend, lookupA, h]
  | cons hd tl ih =>
      obtain ⟨k', vs⟩ := hd
      by_cases hk : k' = k
      · subst hk
        by_cases hkey : k' = key <;> simp [insertAppend, lookupA, hkey]
      · by_cases hkey : k' = key
        · subst hkey
          simp [insertAppend, lookupA, hk]
        · simp [insertAppend, lookupA, hk, hkey, ih]

theorem lookupA_getD_depFold (dl : List String) (v : String) (m : RevMap) (key : String) :
    (lookupA (dl.foldl (fun acc d => insertAppend acc d v) m) key).getD [] =
      (lookupA m key).getD []
        ++ dl.filterMap (fun q => if q = key then some v else none) := by
  induction dl generalizing m with
  | nil => simp
  | cons d rest ih =>
      simp only [List.foldl_cons, List.filterMap_cons]
      rw [ih]
      by_cases hd : d = key
      · rw [lookupA_getD_insertAppend]
        simp [hd, List.append_assoc]
      · rw [lookupA_getD_insertAppend]
        simp [hd]

theorem lookupA_depFold_eq_none (dl : List String) (v : String) (m : RevMap) (key : String) :
    lookupA (dl.foldl (fun acc d => insertAppend acc d v) m) key = none ↔
      lookupA m key = none ∧ key ∉ dl := by
  induction dl generalizing m with
  | nil => simp
  | cons d rest ih =>
      simp only [List.foldl_cons]
      rw [ih, lookupA_insertAppend_eq_none]
      constructor
      · rintro ⟨⟨hdk, hm⟩, hrest⟩
        refine ⟨hm, ?_⟩
        simp only [List.mem_cons, not_or]
        exact ⟨fun h => hdk h.symm, hrest⟩
      · rintro ⟨hm, hmem⟩
        simp only [List.mem_cons, not_or] at hmem
        exact ⟨⟨fun h => hmem.1 h.symm, hm⟩, hmem.2⟩

theorem lookupA_getD_indexPackage (m : RevMap) (p : Package) (key : String) :
    (lookupA (indexPackage m p) key).getD [] =
      (lookupA m key).getD [] ++ pkgOcc p key := by
  unfold indexPackage pkgOcc
  rw [lookupA_getD_depFold, lookupA_getD_depFold, List.filterMap_append,
    List.append_assoc]

theorem filterMapIf_eq_nil (dl : List String) (v key : String) :
    dl.filterMap (fun q => if q = key then some v else none) = [] ↔ key ∉ dl := by
  induction dl with
  | nil => simp
  | cons d rest ih =>
      simp only [List.filterMap_cons, List.mem_cons]
      by_cases hd : d = key
      · subst hd; simp
      · have hkd : ¬key = d := fun h => hd h.symm
        simp [hd, hkd, ih]

theorem lookupA_indexPackage_eq_none (m : RevMap) (p : Package) (key : String) :
    lookupA (indexPackage m p) key = none ↔
      lookupA m key = none ∧ pkgOcc p key = [] := by
  unfold indexPackage
  rw [lookupA_depFold_eq_none, lookupA_depFold_eq_none]
  unfold pkgOcc
  rw [List.filterMap_append, List.append_eq_nil, filterMapIf_eq_nil, filterMapIf_eq_nil]
  tauto

theorem lookupA_getD_foldl_indexPackage (ps : List Package) (m : RevMap) (key : String) :
    (lookupA (ps.foldl indexPackage m) key).getD [] =
      (lookupA m key).getD [] ++ ps.flatMap (fun p => pkgOcc p key) := by
  induction ps generalizing m with
  | nil => simp
  | cons p rest ih =>
      simp only [List.foldl_cons, List.flatMap_cons]
      rw [ih, lookupA_getD_indexPackage, List.append_assoc]

theorem lookupA_foldl_indexPackage_eq_none (ps : List Package) (m : RevMap) (key : String) :
    lookupA (ps.foldl indexPackage m) key = none ↔
      lookupA m key = none ∧ ps.flatMap (fun p => pkgOcc p key) = [] := by
  induction ps generalizing m with
  | nil => simp
  | cons p rest ih =>
      simp only [List.foldl_cons, List.flatMap_cons, List.append_eq_nil]
      rw [ih, lookupA_indexPackage_eq_none]
      tauto

theorem scanDbs_ok (dbs : List SyncDb) (m : RevMap)
    (h : ∀ db ∈ dbs, db.pkgs ≠ none) :
    scanDbs dbs m = .ok ((dbs.flatMap (fun db => db.pkgs.getD [])).foldl indexPackage m) := by
  induction dbs generalizing m with
  | nil => simp [scanDbs]
  | cons db rest ih =>
      obtain ⟨ps, hps⟩ : ∃ ps, db.pkgs = some ps := by
        cases hdb : db.pkgs with
        | none => exact absurd hdb (h db (by simp))
        | some ps => exact ⟨ps, rfl⟩
      simp only [scanDbs, hps]
      rw [ih _ (fun d hd => h d (by simp [hd]))]
      simp [hps, List.foldl_append]

/-! ### Basic facts about the node cache and the graph state -/

theorem lookupA_append {α : Type} (l : List (String × α)) (k : String) (v : α)
    (key : String) :
    lookupA (l ++ [(k, v)]) key =
      match lookupA l key with
      | some x => some x
      | none => if k = key then some v else none := by
  induction l with
  | nil => simp [lookupA]
  | cons hd tl ih =>
      obtain ⟨k', v'⟩ := hd
      by_cases h : k' = key <;> simp [lookupA, h, ih]

theorem lookupA_append_of_some {α : Type} {l : List (String × α)} {key : String}
    {i : α} (k : String) (v : α) (h : lookupA l key = some i) :
    lookupA (l ++ [(k, v)]) key = some i := by
  rw [lookupA_append, h]

theorem mem_iff_getElem? {l : List String} {n : String} :
    n ∈ l ↔ ∃ i : Nat, l[i]? = some n := by
  constructor
  · intro h
    obtain ⟨i, hi, hget⟩ := List.getElem_of_mem h
    exact ⟨i, by rw [List.getElem?_eq_getElem hi, hget]⟩
  · rintro ⟨i, hi⟩
    obtain ⟨hlt, hget⟩ := List.getElem?_eq_some.mp hi
    exact hget ▸ List.getElem_mem hlt

theorem getOrAddNode_queue (st : GState) (n : String) :
    (getOrAddNode st n).2.queue = st.queue := by
  unfold getOrAddNode
  cases lookupA st.cache n <;> rfl

theorem getOrAddNode_toBuild (st : GState) (n : String) :
    (getOrAddNode st n).2.toBuild = st.toBuild := by
  unfold getOrAddNode
  cases lookupA st.cache n <;> rfl

theorem getOrAddNode_edges (st : GState) (n : String) :
    (getOrAddNode st n).2.edges = st.edges := by
  unfold getOrAddNode
  cases lookupA st.cache n <;> rfl

/-- The name→node cache is coherent: a lookup answers `i` exactly when the
node list holds the name at position `i`. -/
def CacheOk (st : GState) : Prop :=
  ∀ m i, lookupA st.cache m = some i ↔ st.nodes[i]? = some m

/-- `getOrAddNode` keeps the node list duplicate-free and the cache
coherent, returns an index labelled with the requested name, extends the
node list only with that name and never invalidates an old cache answer. -/
theorem getOrAddNode_spec (st : GState) (n : String)
    (h1 : st.nodes.Nodup) (h2 : CacheOk st) :
    (getOrAddNode st n).2.nodes.Nodup ∧
    CacheOk (getOrAddNode st n).2 ∧
    (getOrAddNode st n).2.nodes[(getOrAddNode st n).1]? = some n ∧
    (∃ t, (getOrAddNode st n).2.nodes = st.nodes ++ t ∧ ∀ x ∈ t, x = n) ∧
    (∀ m i, lookupA st.cache m = some i →
      lookupA (getOrAddNode st n).2.cache m = some i) := by
  unfold getOrAddNode
  cases hn : lookupA st.cache n with
  | some i =>
      refine ⟨h1, h2, (h2 n i).mp hn, ⟨[], by simp⟩, fun m j hj => hj⟩
  | none =>
      have hnotmem : n ∉ st.nodes := by
        intro hmem
        obtain ⟨i, hi⟩ := mem_iff_getElem?.mp hmem
        rw [← h2 n i] at hi
        exact absurd (hn ▸ hi) (by simp)
      simp only
      refine ⟨?_, ?_, ?_, ⟨[n], rfl, by simp⟩, ?_⟩
      · simp [List.nodup_append, h1, List.disjoint_singleton, hnotmem]
      · intro m i
        rw [lookupA_append]
        cases hm : lookupA st.cache m with
        | some j =>
            simp only
            have hj := (h2 m j).mp hm
            have hjlt : j < st.nodes.length := (List.getElem?_eq_some.mp hj).1
            constructor
            · intro hij
              cases hij
              rw [List.getElem?_append_left (by omega)]
              exact hj
            · intro hi
              rw [List.getElem?_append_left] at hi
              · rw [← h2 m i] at hi
                exact hm ▸ hi
              · by_contra hge
                push_neg at hge
                rcases Nat.lt_or_ge i (st.nodes.length + 1) with hlt | hge2
                · have : i = st.nodes.length := by omega
                  subst this
                  rw [List.getElem?_concat_length] at hi
                  cases hi
                  exact absurd hm (by simp [hn])
                · rw [List.getElem?_eq_none (by simp; omega)] at hi
                  cases hi
        | none =>
            simp only
            by_cases hnm : n = m
            · subst hnm
              simp only [if_pos rfl]
              constructor
              · intro hij
                cases hij
                exact List.getElem?_concat_length _ _
              · intro hi
                rcases Nat.lt_or_ge i st.nodes.length with hlt | hge
                · rw [List.getElem?_append_left hlt] at hi
                  exact absurd (mem_iff_getElem?.mpr ⟨i, hi⟩) hnotmem
                · rcases Nat.lt_or_ge i (st.nodes.length + 1) with hlt2 | hge2
                  · have hieq : i = st.nodes.length := by omega
                    simp [hieq]
                  · rw [List.getElem?_eq_none (by simp; omega)] at hi
                    cases hi
            · simp only [if_neg hnm]
              constructor
              · intro h; cases h
              · intro hi
                rcases Nat.lt_or_ge i st.nodes.length with hlt | hge
                · rw [List.getElem?_append_left hlt] at hi
                  rw [← h2 m i] at hi
                  exact absurd (hm ▸ hi) (by simp)
                · rcases Nat.lt_or_ge i (st.nodes.length + 1) with hlt2 | hge2
                  · have : i = st.nodes.length := by omega
                    subst this
                    rw [List.getElem?_concat_length] at hi
                    cases hi
                    exact absurd rfl hnm
                  · rw [List.getElem?_eq_none (by simp; omega)] at hi
                    cases hi
      · exact List.getElem?_concat_length _ _
      · intro m i hm
        exact lookupA_append_of_some _ _ hm

/-! ### The expansion-loop invariant -/

theorem getElem?_append_some {α : Type} {l t : List α} {i : Nat} {a : α}
    (h : l[i]? = some a) : (l ++ t)[i]? = some a := by
  have hlt := (List.getElem?_eq_some.mp h).1
  rw [List.getElem?_append_left hlt]
  exact h

/-- A name that is a seed or a direct reverse-dependent of a seed. -/
def withinOne (idx : RevMap) (seeds : List String) (x : String) : Prop :=
  x ∈ seeds ∨ ∃ s ∈ seeds, x ∈ depsOf idx s

/-- A name that is a seed, a direct reverse-dependent of a seed, or a
direct reverse-dependent of such a dependent. -/
def withinTwo (idx : RevMap) (seeds : List String) (x : String) : Prop :=
  withinOne idx seeds x ∨ ∃ y, withinOne idx seeds y ∧ x ∈ depsOf idx y

/-- The loop invariant of the expansion phase, at iteration boundaries. -/
structure Inv (idx : RevMap) (seeds : List String) (st : GState) : Prop where
  nodesNodup : st.nodes.Nodup
  cacheOk : CacheOk st
  edgesNodup : st.edges.Nodup
  edgeSrc : ∀ e ∈ st.edges, ∃ m, st.nodes[e.1]? = some m ∧ lookupA idx m ≠ none
  queueBuilt : ∀ x ∈ st.queue, x ∈ seeds ∨ x ∈ st.toBuild
  queueLevel : ∀ x ∈ st.queue, withinOne idx seeds x
  seedsCovered : ∀ s ∈ seeds, lookupA st.cache s ≠ none ∨ s ∈ st.queue
  nodeLevel : ∀ x ∈ st.nodes, withinTwo idx seeds x

/-- The part of the invariant carried through the edge-insertion fold of
one loop iteration, relative to the fold's entry state: the queue and
`to_build` are untouched, `root` keeps its label, and cache answers are
never invalidated. -/
structure FoldInv (idx : RevMap) (seeds : List String) (root : Nat) (pkg : String)
    (q0 tb0 : List String) (c0 : List (String × Nat)) (st : GState) : Prop where
  nodesNodup : st.nodes.Nodup
  cacheOk : CacheOk st
  edgesNodup : st.edges.Nodup
  edgeSrc : ∀ e ∈ st.edges, ∃ m, st.nodes[e.1]? = some m ∧ lookupA idx m ≠ none
  nodeLevel : ∀ x ∈ st.nodes, withinTwo idx seeds x
  rootLabel : st.nodes[root]? = some pkg
  queueEq : st.queue = q0
  toBuildEq : st.toBuild = tb0
  cacheMono : ∀ m i, lookupA c0 m = some i → lookupA st.cache m = some i

theorem addDepEdge_eq_pos (root : Nat) (st : GState) (d : String)
    (hmem : (root, (getOrAddNode st d).1) ∈ (getOrAddNode st d).2.edges) :
    addDepEdge root st d = (getOrAddNode st d).2 := by
  simp only [addDepEdge, if_pos hmem]

theorem addDepEdge_eq_neg (root : Nat) (st : GState) (d : String)
    (hmem : (root, (getOrAddNode st d).1) ∉ (getOrAddNode st d).2.edges) :
    addDepEdge root st d =
      { (getOrAddNode st d).2 with
          edges := (getOrAddNode st d).2.edges ++ [(root, (getOrAddNode st d).1)] } := by
  simp only [addDepEdge, if_neg hmem]

theorem addDepEdge_queue (root : Nat) (st : GState) (d : String) :
    (addDepEdge root st d).queue = st.queue := by
  by_cases hmem : (root, (getOrAddNode st d).1) ∈ (getOrAddNode st d).2.edges
  · rw [addDepEdge_eq_pos root st d hmem, getOrAddNode_queue]
  · rw [addDepEdge_eq_neg root st d hmem]
    exact getOrAddNode_queue st d

theorem addDepEdge_toBuild (root : Nat) (st : GState) (d : String) :
    (addDepEdge root st d).toBuild = st.toBuild := by
  by_cases hmem : (root, (getOrAddNode st d).1) ∈ (getOrAddNode st d).2.edges
  · rw [addDepEdge_eq_pos root st d hmem, getOrAddNode_toBuild]
  · rw [addDepEdge_eq_neg root st d hmem]
    exact getOrAddNode_toBuild st d

theorem addDepEdge_foldInv (idx : RevMap) (seeds : List String) (root : Nat)
    (pkg : String) (hpkg : lookupA idx pkg ≠ none) (q0 tb0 : List String)
    (c0 : List (String × Nat)) (d : String) (hd : withinTwo idx seeds d)
    (st : GState) (h : FoldInv idx seeds root pkg q0 tb0 c0 st) :
    FoldInv idx seeds root pkg q0 tb0 c0 (addDepEdge root st d) := by
  obtain ⟨hnn, hci, hen, hes, hnl, hroot, hqe, htb, hcm⟩ := h
  obtain ⟨hnn2, hci2, hlbl2, ⟨t, hnodes2, ht⟩, hcm2⟩ := getOrAddNode_spec st d hnn hci
  have hedges2 := getOrAddNode_edges st d
  have hqueue2 := getOrAddNode_queue st d
  have htb2 := getOrAddNode_toBuild st d
  have hes2 : ∀ e ∈ (getOrAddNode st d).2.edges,
      ∃ m, (getOrAddNode st d).2.nodes[e.1]? = some m ∧ lookupA idx m ≠ none := by
    intro e he
    rw [hedges2] at he
    obtain ⟨m, hm, hmidx⟩ := hes e he
    exact ⟨m, hnodes2 ▸ getElem?_append_some hm, hmidx⟩
  have hnl2 : ∀ x ∈ (getOrAddNode st d).2.nodes, withinTwo idx seeds x := by
    intro x hx
    rw [hnodes2] at hx
    rcases List.mem_append.mp hx with hx | hx
    · exact hnl x hx
    · exact (ht x hx) ▸ hd
  have hroot2 : (getOrAddNode st d).2.nodes[root]? = some pkg := by
    rw [hnodes2]
    exact getElem?_append_some hroot
  by_cases hnotmem : (root, (getOrAddNode st d).1) ∈ (getOrAddNode st d).2.edges
  · rw [addDepEdge_eq_pos root st d hnotmem]
    exact ⟨hnn2, hci2, hedges2 ▸ hen, hes2, hnl2, hroot2,
      hqueue2.trans hqe, htb2.trans htb, fun m i hm => hcm2 m i (hcm m i hm)⟩
  · rw [addDepEdge_eq_neg root st d hnotmem]
    refine ⟨hnn2, hci2, ?_, ?_, hnl2, hroot2, hqueue2.trans hqe, htb2.trans htb,
      fun m i hm => hcm2 m i (hcm m i hm)⟩
    · rw [List.nodup_append]
      refine ⟨hedges2 ▸ hen, List.nodup_singleton _, ?_⟩
      intro e he he'
      rw [List.mem_singleton] at he'
      exact hnotmem (he' ▸ he)
    · intro e he
      rcases List.mem_append.mp he with he | he
      · exact hes2 e he
      · rw [List.mem_singleton] at he
        subst he
        exact ⟨pkg, hroot2, hpkg⟩

theorem foldl_addDepEdge_foldInv (idx : RevMap) (seeds : List String) (root : Nat)
    (pkg : String) (hpkg : lookupA idx pkg ≠ none) (q0 tb0 : List String)
    (c0 : List (String × Nat)) (deps : List String)
    (hdeps : ∀ d ∈ deps, withinTwo idx seeds d) :
    ∀ st, FoldInv idx seeds root pkg q0 tb0 c0 st →
      FoldInv idx seeds root pkg q0 tb0 c0 (deps.foldl (addDepEdge root) st) := by
  induction deps with
  | nil => intro st h; exact h
  | cons d rest ih =>
      intro st h
      simp only [List.foldl_cons]
      exact ih (fun x hx => hdeps x (by simp [hx])) _
        (addDepEdge_foldInv idx seeds root pkg hpkg q0 tb0 c0 d
          (hdeps d (by simp)) st h)

/-! ### Shape of one loop iteration, and termination of the worklist -/

theorem foldl_addDepEdge_queue (root : Nat) (deps : List String) :
    ∀ st : GState, (deps.foldl (addDepEdge root) st).queue = st.queue := by
  induction deps with
  | nil => intro st; rfl
  | cons d rest ih =>
      intro st
      simp only [List.foldl_cons]
      rw [ih, addDepEdge_queue]

theorem foldl_addDepEdge_toBuild (root : Nat) (deps : List String) :
    ∀ st : GState, (deps.foldl (addDepEdge root) st).toBuild = st.toBuild := by
  induction deps with
  | nil => intro st; rfl
  | cons d rest ih =>
      intro st
      simp only [List.foldl_cons]
      rw [ih, addDepEdge_toBuild]

theorem stepOne_eq_none (idx : RevMap) (st : GState) (pkg : String)
    (h : lookupA idx pkg = none) :
    stepOne idx st pkg = (getOrAddNode st pkg).2 := by
  simp only [stepOne, h]

theorem stepOne_eq_some (idx : RevMap) (st : GState) (pkg : String)
    (deps : List String) (h : lookupA idx pkg = some deps) :
    stepOne idx st pkg =
      { deps.foldl (addDepEdge (getOrAddNode st pkg).1)
          (if pkg ∈ (getOrAddNode st pkg).2.toBuild then (getOrAddNode st pkg).2
           else { (getOrAddNode st pkg).2 with
                    queue := (getOrAddNode st pkg).2.queue ++ deps }) with
        toBuild :=
          (deps.foldl (addDepEdge (getOrAddNode st pkg).1)
            (if pkg ∈ (getOrAddNode st pkg).2.toBuild then (getOrAddNode st pkg).2
             else { (getOrAddNode st pkg).2 with
                      queue := (getOrAddNode st pkg).2.queue ++ deps })).toBuild
            ++ deps } := by
  simp only [stepOne, h]

theorem stepOne_queue_none (idx : RevMap) (st : GState) (pkg : String)
    (h : lookupA idx pkg = none) : (stepOne idx st pkg).queue = st.queue := by
  rw [stepOne_eq_none idx st pkg h]
  exact getOrAddNode_queue st pkg

theorem stepOne_toBuild_none (idx : RevMap) (st : GState) (pkg : String)
    (h : lookupA idx pkg = none) : (stepOne idx st pkg).toBuild = st.toBuild := by
  rw [stepOne_eq_none idx st pkg h]
  exact getOrAddNode_toBuild st pkg

theorem GState_queue_setToBuild (st : GState) (tb : List String) :
    ({ st with toBuild := tb } : GState).queue = st.queue := rfl

theorem GState_toBuild_setToBuild (st : GState) (tb : List String) :
    ({ st with toBuild := tb } : GState).toBuild = tb := rfl

theorem stepOne_queue_some (idx : RevMap) (st : GState) (pkg : String)
    (deps : List String) (h : lookupA idx pkg = some deps) :
    (stepOne idx st pkg).queue =
      if pkg ∈ st.toBuild then st.queue else st.queue ++ deps := by
  rw [stepOne_eq_some idx st pkg deps h, GState_queue_setToBuild]
  rw [foldl_addDepEdge_queue]
  by_cases hmem : pkg ∈ st.toBuild
  · rw [if_pos (by rw [getOrAddNode_toBuild]; exact hmem), if_pos hmem]
    exact getOrAddNode_queue st pkg
  · rw [if_neg (by rw [getOrAddNode_toBuild]; exact hmem), if_neg hmem]
    show (getOrAddNode st pkg).2.queue ++ deps = st.queue ++ deps
    rw [getOrAddNode_queue]

theorem stepOne_toBuild_some (idx : RevMap) (st : GState) (pkg : String)
    (deps : List String) (h : lookupA idx pkg = some deps) :
    (stepOne idx st pkg).toBuild = st.toBuild ++ deps := by
  rw [stepOne_eq_some idx st pkg deps h, GState_toBuild_setToBuild]
  rw [foldl_addDepEdge_toBuild]
  by_cases hmem : pkg ∈ (getOrAddNode st pkg).2.toBuild
  · rw [if_pos hmem, getOrAddNode_toBuild]
  · rw [if_neg hmem]
    show (getOrAddNode st pkg).2.toBuild ++ deps = st.toBuild ++ deps
    rw [getOrAddNode_toBuild]

theorem one_le_entryCost (idx : RevMap) (tb : List String) (x : String) :
    1 ≤ entryCost idx tb x := by
  unfold entryCost
  split <;> omega

theorem entryCost_anti (idx : RevMap) (tb ds : List String) (x : String) :
    entryCost idx (tb ++ ds) x ≤ entryCost idx tb x := by
  unfold entryCost
  by_cases hx : x ∈ tb
  · rw [if_pos hx, if_pos (List.mem_append.mpr (Or.inl hx))]
  · rw [if_neg hx]
    split <;> omega

theorem sum_map_one {l : List String} {f : String → Nat} (h : ∀ x ∈ l, f x = 1) :
    (l.map f).sum = l.length := by
  induction l with
  | nil => simp
  | cons a t ih =>
      simp only [List.map_cons, List.sum_cons, h a (by simp),
        ih (fun x hx => h x (by simp [hx])), List.length_cons]
      omega

/-- Every loop iteration strictly decreases the measure `phi`. -/
theorem phi_stepOne_lt (idx : RevMap) (st : GState) (pkg : String)
    (rest : List String) (hq : st.queue = pkg :: rest) :
    phi idx (stepOne idx { st with queue := rest } pkg) < phi idx st := by
  have hphi : phi idx st =
      entryCost idx st.toBuild pkg + (rest.map (entryCost idx st.toBuild)).sum := by
    unfold phi
    rw [hq]
    simp
  cases hidx : lookupA idx pkg with
  | none =>
      have hqs : (stepOne idx { st with queue := rest } pkg).queue = rest := by
        rw [stepOne_queue_none idx _ pkg hidx]
      have htbs : (stepOne idx { st with queue := rest } pkg).toBuild = st.toBuild := by
        rw [stepOne_toBuild_none idx _ pkg hidx]
      rw [hphi]
      unfold phi
      rw [hqs, htbs]
      have h1 := one_le_entryCost idx st.toBuild pkg
      omega
  | some deps =>
      have htbs : (stepOne idx { st with queue := rest } pkg).toBuild =
          st.toBuild ++ deps := by
        rw [stepOne_toBuild_some idx _ pkg deps hidx]
      have hqs : (stepOne idx { st with queue := rest } pkg).queue =
          if pkg ∈ st.toBuild then rest else rest ++ deps := by
        rw [stepOne_queue_some idx _ pkg deps hidx]
      by_cases hmem : pkg ∈ st.toBuild
      · rw [if_pos hmem] at hqs
        rw [hphi]
        unfold phi
        rw [hqs, htbs]
        have h1 : ((rest.map (entryCost idx (st.toBuild ++ deps))).sum) ≤
            (rest.map (entryCost idx st.toBuild)).sum :=
          List.sum_le_sum (fun x _ => entryCost_anti idx st.toBuild deps x)
        have h2 := one_le_entryCost idx st.toBuild pkg
        omega
      · rw [if_neg hmem] at hqs
        rw [hphi]
        unfold phi
        rw [hqs, htbs, List.map_append, List.sum_append]
        have h1 : ((rest.map (entryCost idx (st.toBuild ++ deps))).sum) ≤
            (rest.map (entryCost idx st.toBuild)).sum :=
          List.sum_le_sum (fun x _ => entryCost_anti idx st.toBuild deps x)
        have h2 : ((deps.map (entryCost idx (st.toBuild ++ deps))).sum) = deps.length := by
          apply sum_map_one
          intro d hd
          unfold entryCost
          rw [if_pos (List.mem_append.mpr (Or.inr hd))]
        have h3 : entryCost idx st.toBuild pkg = 1 + deps.length := by
          unfold entryCost
          rw [if_neg hmem]
          unfold depsOf
          rw [hidx]
          rfl
        omega

theorem expandLoop_of_queue_nil (idx : RevMap) (fuel : Nat) (st : GState)
    (h : st.queue = []) : expandLoop idx fuel st = st := by
  cases fuel with
  | zero => rfl
  | succ f => simp [expandLoop, h]

theorem queue_nil_of_phi_eq_zero (idx : RevMap) (st : GState)
    (h : phi idx st = 0) : st.queue = [] := by
  cases hq : st.queue with
  | nil => rfl
  | cons pkg rest =>
      exfalso
      unfold phi at h
      rw [hq] at h
      simp only [List.map_cons, List.sum_cons] at h
      have := one_le_entryCost idx st.toBuild pkg
      omega

/-- With at least `phi` fuel the loop drains its queue. -/
theorem expandLoop_queue_nil (idx : RevMap) :
    ∀ (fuel : Nat) (st : GState), phi idx st ≤ fuel →
      (expandLoop idx fuel st).queue = [] := by
  intro fuel
  induction fuel with
  | zero =>
      intro st h
      have h0 : phi idx st = 0 := by omega
      have := queue_nil_of_phi_eq_zero idx st h0
      rw [expandLoop_of_queue_nil idx 0 st this]
      exact this
  | succ f ih =>
      intro st h
      cases hq : st.queue with
      | nil =>
          rw [expandLoop_of_queue_nil idx (f + 1) st hq]
          exact hq
      | cons pkg rest =>
          have hlt := phi_stepOne_lt idx st pkg rest hq
          have : expandLoop idx (f + 1) st =
              expandLoop idx f (stepOne idx { st with queue := rest } pkg) := by
            simp [expandLoop, hq]
          rw [this]
          exact ih _ (by omega)

/-- Beyond the measure the fuel is irrelevant: the loop has stabilised. -/
theorem expandLoop_congr_fuel (idx : RevMap) :
    ∀ (f1 f2 : Nat) (st : GState), phi idx st ≤ f1 → phi idx st ≤ f2 →
      expandLoop idx f1 st = expandLoop idx f2 st := by
  intro f1
  induction f1 with
  | zero =>
      intro f2 st h1 h2
      have h0 : phi idx st = 0 := by omega
      have hq := queue_nil_of_phi_eq_zero idx st h0
      rw [expandLoop_of_queue_nil idx 0 st hq, expandLoop_of_queue_nil idx f2 st hq]
  | succ f ih =>
      intro f2 st h1 h2
      cases hq : st.queue with
      | nil => rw [expandLoop_of_queue_nil idx _ st hq, expandLoop_of_queue_nil idx f2 st hq]
      | cons pkg rest =>
          have hpos : 1 ≤ phi idx st := by
            unfold phi
            rw [hq]
            simp only [List.map_cons, List.sum_cons]
            have := one_le_entryCost idx st.toBuild pkg
            omega
          cases f2 with
          | zero => omega
          | succ g =>
              have hlt := phi_stepOne_lt idx st pkg rest hq
              have e1 : expandLoop idx (f + 1) st =
                  expandLoop idx f (stepOne idx { st with queue := rest } pkg) := by
                simp [expandLoop, hq]
              have e2 : expandLoop idx (g + 1) st =
                  expandLoop idx g (stepOne idx { st with queue := rest } pkg) := by
                simp [expandLoop, hq]
              rw [e1, e2]
              exact ih g _ (by omega) (by omega)

/-- Any predicate preserved by one iteration is preserved by the loop. -/
theorem expandLoop_preserve (idx : RevMap) (P : GState → Prop)
    (hstep : ∀ (st : GState) (pkg : String) (rest : List String),
      st.queue = pkg :: rest → P st → P (stepOne idx { st with queue := rest } pkg)) :
    ∀ (fuel : Nat) (st : GState), P st → P (expandLoop idx fuel st) := by
  intro fuel
  induction fuel with
  | zero => intro st h; exact h
  | succ f ih =>
      intro st h
      cases hq : st.queue with
      | nil => rw [expandLoop_of_queue_nil idx _ st hq]; exact h
      | cons pkg rest =>
          have e1 : expandLoop idx (f + 1) st =
              expandLoop idx f (stepOne idx { st with queue := rest } pkg) := by
            simp [expandLoop, hq]
          rw [e1]
          exact ih _ (hstep st pkg rest hq h)

/-! ### The invariant is preserved by every iteration -/

theorem foldInv_setQueue {idx : RevMap} {seeds : List String} {root : Nat}
    {pkg : String} {q0 tb0 : List String} {c0 : List (String × Nat)} {st : GState}
    (h : FoldInv idx seeds root pkg q0 tb0 c0 st) (q1 : List String) :
    FoldInv idx seeds root pkg q1 tb0 c0 { st with queue := q1 } := by
  obtain ⟨a, b, c, d, e, f, g, h8, i⟩ := h
  exact ⟨a, b, c, d, e, f, rfl, h8, i⟩

/-- Reassemble the loop invariant for the final state of an iteration that
found an index entry, from the fold invariant at the end of the edge fold. -/
theorem assemble_inv (idx : RevMap) (seeds : List String) (st : GState)
    (pkg : String) (rest deps : List String) {root : Nat}
    {q0 : List String} {c0 : List (String × Nat)} {F : GState}
    (hq : st.queue = pkg :: rest)
    (hqb : ∀ x ∈ st.queue, x ∈ seeds ∨ x ∈ st.toBuild)
    (hql : ∀ x ∈ st.queue, withinOne idx seeds x)
    (hfold : FoldInv idx seeds root pkg q0 st.toBuild c0 F)
    (hq0 : q0 = rest ∨ (q0 = rest ++ deps ∧ pkg ∉ st.toBuild))
    (hdeps : deps = depsOf idx pkg)
    (hscF : ∀ s ∈ seeds, lookupA F.cache s ≠ none ∨ s ∈ rest) :
    Inv idx seeds { F with toBuild := F.toBuild ++ deps } := by
  obtain ⟨hnn, hci, hen, hes, hnl, hroot, hqe, htbe, hcm⟩ := hfold
  have hpkgmem : pkg ∈ st.queue := by rw [hq]; simp
  refine ⟨hnn, hci, hen, hes, ?_, ?_, ?_, hnl⟩
  · intro x hx
    rw [GState_queue_setToBuild, hqe] at hx
    rw [GState_toBuild_setToBuild, htbe]
    rcases hq0 with hr | ⟨hr, _⟩ <;> rw [hr] at hx
    · have hxq : x ∈ st.queue := by rw [hq]; exact List.mem_cons_of_mem _ hx
      rcases hqb x hxq with hxs | hxb
      · exact Or.inl hxs
      · exact Or.inr (List.mem_append.mpr (Or.inl hxb))
    · rcases List.mem_append.mp hx with hx | hx
      · have hxq : x ∈ st.queue := by rw [hq]; exact List.mem_cons_of_mem _ hx
        rcases hqb x hxq with hxs | hxb
        · exact Or.inl hxs
        · exact Or.inr (List.mem_append.mpr (Or.inl hxb))
      · exact Or.inr (List.mem_append.mpr (Or.inr hx))
  · intro x hx
    rw [GState_queue_setToBuild, hqe] at hx
    rcases hq0 with hr | ⟨hr, hnotb⟩ <;> rw [hr] at hx
    · exact hql x (by rw [hq]; exact List.mem_cons_of_mem _ hx)
    · rcases List.mem_append.mp hx with hx | hx
      · exact hql x (by rw [hq]; exact List.mem_cons_of_mem _ hx)
      · have hpkgseed : pkg ∈ seeds := (hqb pkg hpkgmem).resolve_right hnotb
        exact Or.inr ⟨pkg, hpkgseed, hdeps ▸ hx⟩
  · intro s hs
    rcases hscF s hs with hnone | hsrest
    · exact Or.inl hnone
    · right
      rw [GState_queue_setToBuild, hqe]
      rcases hq0 with hr | ⟨hr, _⟩ <;> rw [hr]
      · exact hsrest
      · exact List.mem_append.mpr (Or.inl hsrest)

theorem stepOne_inv (idx : RevMap) (seeds : List String) (st : GState)
    (pkg : String) (rest : List String) (hq : st.queue = pkg :: rest)
    (h : Inv idx seeds st) :
    Inv idx seeds (stepOne idx { st with queue := rest } pkg) := by
  obtain ⟨hnn, hci, hen, hes, hqb, hql, hsc, hnl⟩ := h
  have hpkgmem : pkg ∈ st.queue := by rw [hq]; simp
  have hpkg1 : withinOne idx seeds pkg := hql pkg hpkgmem
  obtain ⟨hnn2, hci2, hlbl2, ⟨t, hnodes2, ht⟩, hcm2⟩ :=
    getOrAddNode_spec { st with queue := rest } pkg hnn hci
  have hq2 : (getOrAddNode { st with queue := rest } pkg).2.queue = rest := by
    rw [getOrAddNode_queue]
  have htb2 : (getOrAddNode { st with queue := rest } pkg).2.toBuild = st.toBuild := by
    rw [getOrAddNode_toBuild]
  have hed2 : (getOrAddNode { st with queue := rest } pkg).2.edges = st.edges := by
    rw [getOrAddNode_edges]
  have henX : (getOrAddNode { st with queue := rest } pkg).2.edges.Nodup := by
    rw [hed2]
    exact hen
  have hesX : ∀ e ∈ (getOrAddNode { st with queue := rest } pkg).2.edges,
      ∃ m, (getOrAddNode { st with queue := rest } pkg).2.nodes[e.1]? = some m ∧
        lookupA idx m ≠ none := by
    intro e he
    rw [hed2] at he
    obtain ⟨m, hm, hmi⟩ := hes e he
    refine ⟨m, ?_, hmi⟩
    rw [hnodes2]
    exact getElem?_append_some hm
  have hnlX : ∀ x ∈ (getOrAddNode { st with queue := rest } pkg).2.nodes,
      withinTwo idx seeds x := by
    intro x hx
    rw [hnodes2] at hx
    rcases List.mem_append.mp hx with hx | hx
    · exact hnl x hx
    · rw [ht x hx]
      exact Or.inl hpkg1
  cases hidx : lookupA idx pkg with
  | none =>
      rw [stepOne_eq_none idx _ pkg hidx]
      refine ⟨hnn2, hci2, henX, hesX, ?_, ?_, ?_, hnlX⟩
      · intro x hx
        rw [hq2] at hx
        have hxq : x ∈ st.queue := by rw [hq]; exact List.mem_cons_of_mem _ hx
        rcases hqb x hxq with hxs | hxb
        · exact Or.inl hxs
        · rw [htb2]
          exact Or.inr hxb
      · intro x hx
        rw [hq2] at hx
        exact hql x (by rw [hq]; exact List.mem_cons_of_mem _ hx)
      · intro s hs
        rcases hsc s hs with hnone | hmem
        · left
          obtain ⟨i, hi⟩ := Option.ne_none_iff_exists'.mp hnone
          have hsome := hcm2 s i hi
          simp [hsome]
        · rw [hq] at hmem
          rcases List.mem_cons.mp hmem with hspkg | hsrest
          · left
            have hsome : lookupA (getOrAddNode { st with queue := rest } pkg).2.cache s
                = some (getOrAddNode { st with queue := rest } pkg).1 := by
              rw [hspkg]
              exact (hci2 pkg _).mpr hlbl2
            simp [hsome]
          · right
            rw [hq2]
            exact hsrest
  | some deps =>
      have hpkgidx : lookupA idx pkg ≠ none := by rw [hidx]; simp
      have hdepseq : deps = depsOf idx pkg := by
        unfold depsOf
        rw [hidx]
        rfl
      have hw2 : ∀ d ∈ deps, withinTwo idx seeds d := by
        intro d hd
        exact Or.inr ⟨pkg, hpkg1, hdepseq ▸ hd⟩
      have hfold0 : FoldInv idx seeds (getOrAddNode { st with queue := rest } pkg).1 pkg
          rest st.toBuild (getOrAddNode { st with queue := rest } pkg).2.cache
          (getOrAddNode { st with queue := rest } pkg).2 :=
        ⟨hnn2, hci2, henX, hesX, hnlX, hlbl2, hq2, htb2, fun m i hm => hm⟩
      rw [stepOne_eq_some idx _ pkg deps hidx]
      by_cases hmem : pkg ∈ (getOrAddNode { st with queue := rest } pkg).2.toBuild
      · rw [if_pos hmem]
        have hfoldF := foldl_addDepEdge_foldInv idx seeds
          (getOrAddNode { st with queue := rest } pkg).1 pkg hpkgidx rest st.toBuild
          (getOrAddNode { st with queue := rest } pkg).2.cache deps hw2
          (getOrAddNode { st with queue := rest } pkg).2 hfold0
        have hscF : ∀ s ∈ seeds,
            lookupA (deps.foldl (addDepEdge (getOrAddNode { st with queue := rest } pkg).1)
              (getOrAddNode { st with queue := rest } pkg).2).cache s ≠ none ∨ s ∈ rest := by
          intro s hs
          rcases hsc s hs with hnone | hmemq
          · left
            obtain ⟨i, hi⟩ := Option.ne_none_iff_exists'.mp hnone
            have h1 := hcm2 s i hi
            have h2 := hfoldF.cacheMono s i h1
            simp [h2]
          · rw [hq] at hmemq
            rcases List.mem_cons.mp hmemq with hspkg | hsrest
            · left
              have h1 : lookupA (getOrAddNode { st with queue := rest } pkg).2.cache s
                  = some (getOrAddNode { st with queue := rest } pkg).1 := by
                rw [hspkg]
                exact (hci2 pkg _).mpr hlbl2
              have h2 := hfoldF.cacheMono s _ h1
              simp [h2]
            · exact Or.inr hsrest
        exact assemble_inv idx seeds st pkg rest deps hq hqb hql hfoldF
          (Or.inl rfl) hdepseq hscF
      · have hmem' : pkg ∉ st.toBuild := by
          intro hc
          apply hmem
          rw [htb2]
          exact hc
        rw [if_neg hmem, hq2]
        have hfold1 := foldInv_setQueue hfold0 (rest ++ deps)
        have hfoldF := foldl_addDepEdge_foldInv idx seeds
          (getOrAddNode { st with queue := rest } pkg).1 pkg hpkgidx (rest ++ deps)
          st.toBuild (getOrAddNode { st with queue := rest } pkg).2.cache deps hw2
          { (getOrAddNode { st with queue := rest } pkg).2 with queue := rest ++ deps }
          hfold1
        have hscF : ∀ s ∈ seeds,
            lookupA (deps.foldl (addDepEdge (getOrAddNode { st with queue := rest } pkg).1)
              { (getOrAddNode { st with queue := rest } pkg).2 with
                  queue := rest ++ deps }).cache s ≠ none ∨ s ∈ rest := by
          intro s hs
          rcases hsc s hs with hnone | hmemq
          · left
            obtain ⟨i, hi⟩ := Option.ne_none_iff_exists'.mp hnone
            have h1 := hcm2 s i hi
            have h2 := hfoldF.cacheMono s i h1
            simp [h2]
          · rw [hq] at hmemq
            rcases List.mem_cons.mp hmemq with hspkg | hsrest
            · left
              have h1 : lookupA (getOrAddNode { st with queue := rest } pkg).2.cache s
                  = some (getOrAddNode { st with queue := rest } pkg).1 := by
                rw [hspkg]
                exact (hci2 pkg _).mpr hlbl2
              have h2 := hfoldF.cacheMono s _ h1
              simp [h2]
            · exact Or.inr hsrest
        exact assemble_inv idx seeds st pkg rest deps hq hqb hql hfoldF
          (Or.inr ⟨rfl, hmem'⟩) hdepseq hscF

theorem inv_initState (idx : RevMap) (seeds : List String) :
    Inv idx seeds (initState seeds) := by
  refine ⟨List.nodup_nil, ?_, List.nodup_nil, ?_, ?_, ?_, ?_, ?_⟩
  · intro m i
    simp [initState, lookupA]
  · intro e he
    simp [initState] at he
  · intro x hx
    exact Or.inl hx
  · intro x hx
    exact Or.inl hx
  · intro s hs
    exact Or.inr hs
  · intro x hx
    simp [initState] at hx

theorem inv_expandLoop (idx : RevMap) (seeds : List String) (fuel : Nat) :
    Inv idx seeds (expandLoop idx fuel (initState seeds)) :=
  expandLoop_preserve idx (Inv idx seeds)
    (fun st pkg rest hq h => stepOne_inv idx seeds st pkg rest hq h)
    fuel (initState seeds) (inv_initState idx seeds)

theorem inv_runExpansion (idx : RevMap) (seeds : List String) :
    Inv idx seeds (runExpansion idx seeds) :=
  inv_expandLoop idx seeds (phi idx (initState seeds))

theorem runExpansion_queue_nil (idx : RevMap) (seeds : List String) :
    (runExpansion idx seeds).queue = [] :=
  expandLoop_queue_nil idx (phi idx (initState seeds)) (initState seeds) le_rfl

/-! ### The reporter -/

/-- After expansion every seed is cached and its node carries its name. -/
theorem seed_cached (idx : RevMap) (seeds : List String) (s : String)
    (hs : s ∈ seeds) :
    ∃ i, lookupA (runExpansion idx seeds).cache s = some i ∧
      (runExpansion idx seeds).nodes[i]? = some s := by
  have hinv := inv_runExpansion idx seeds
  have hqn := runExpansion_queue_nil idx seeds
  rcases hinv.seedsCovered s hs with hnone | hmemq
  · obtain ⟨i, hi⟩ := Option.ne_none_iff_exists'.mp hnone
    exact ⟨i, hi, (hinv.cacheOk s i).mp hi⟩
  · rw [hqn] at hmemq
    cases hmemq

theorem filterMap_eq_map_of_some {α β : Type} (f : α → Option β) (g : α → β) :
    ∀ l : List α, (∀ x ∈ l, f x = some (g x)) → l.filterMap f = l.map g := by
  intro l
  induction l with
  | nil => intro _; rfl
  | cons a t ih =>
      intro h
      rw [List.filterMap_cons, h a (by simp), List.map_cons,
        ih (fun x hx => h x (by simp [hx]))]

/-- The line the reporter prints for a cached seed. -/
def lineFor (st : GState) (pkg : String) : List String :=
  match lookupA st.cache pkg with
  | none => []
  | some i => (bfsFrom st i).map (fun nx => st.nodes.getD nx "")

theorem reportLines_eq_map (idx : RevMap) (seeds : List String) :
    reportLines (runExpansion idx seeds) seeds =
      seeds.map (lineFor (runExpansion idx seeds)) := by
  apply filterMap_eq_map_of_some
  intro s hs
  obtain ⟨i, hi, _⟩ := seed_cached idx seeds s hs
  simp only [lineFor, hi]

theorem reportLines_length (idx : RevMap) (seeds : List String) :
    (reportLines (runExpansion idx seeds) seeds).length = seeds.length := by
  rw [reportLines_eq_map]
  exact List.length_map _ _

/-- Each line starts with its own seed: the BFS pops the start node first. -/
theorem lineFor_headI (idx : RevMap) (seeds : List String) (s : String)
    (hs : s ∈ seeds) :
    (lineFor (runExpansion idx seeds) s).headI = s := by
  obtain ⟨i, hi, hnode⟩ := seed_cached idx seeds s hs
  have hlen : i < (runExpansion idx seeds).nodes.length :=
    (List.getElem?_eq_some.mp hnode).1
  simp only [lineFor, hi]
  unfold bfsFrom
  cases hl : (runExpansion idx seeds).nodes.length with
  | zero => omega
  | succ m =>
      simp only [bfsAux, List.map_cons, List.headI]
      rw [List.getD_eq_getElem?_getD, hnode]
      rfl

theorem bfsAux_queue_nil (st : GState) :
    ∀ (fuel : Nat) (disc : List Nat), bfsAux st fuel [] disc = [] := by
  intro fuel disc
  cases fuel <;> rfl

/-- BFS from a node with no outgoing edges visits only that node. -/
theorem bfsFrom_no_out (st : GState) (i : Nat) (hne : st.nodes.length ≠ 0)
    (hnoedge : ∀ e ∈ st.edges, e.1 ≠ i) :
    bfsFrom st i = [i] := by
  have hout : outNeighbors st i = [] := by
    unfold outNeighbors
    have hfil : st.edges.filter (fun e => e.1 == i) = [] := by
      rw [List.filter_eq_nil_iff]
      intro e he
      simp only [beq_iff_eq]
      exact hnoedge e he
    rw [hfil]
    rfl
  unfold bfsFrom
  cases hl : st.nodes.length with
  | zero => exact absurd hl hne
  | succ m =>
      simp only [bfsAux, hout, List.foldl_nil]
      rw [bfsAux_queue_nil]

/-- A node whose name has no index entry has no outgoing edges. -/
theorem no_out_edges_of_no_entry (idx : RevMap) (seeds : List String)
    (s : String) (i : Nat)
    (hi : lookupA (runExpansion idx seeds).cache s = some i)
    (hnoidx : lookupA idx s = none) :
    ∀ e ∈ (runExpansion idx seeds).edges, e.1 ≠ i := by
  intro e he hc
  have hinv := inv_runExpansion idx seeds
  obtain ⟨m, hm, hmi⟩ := hinv.edgeSrc e he
  rw [hc] at hm
  have hnode := (hinv.cacheOk s i).mp hi
  rw [hm] at hnode
  cases hnode
  exact hmi hnoidx

/-! ### Hash-order independence: the pipeline reads the index only through
lookups, so any association-list representation of the same map gives the
same behaviour. -/

theorem lookupA_mem {α : Type} {m : List (String × α)} {k : String} {v : α}
    (h : lookupA m k = some v) : (k, v) ∈ m := by
  induction m with
  | nil => cases h
  | cons hd tl ih =>
      obtain ⟨k', v'⟩ := hd
      by_cases hk : k' = k
      · subst hk
        rw [lookupA, if_pos rfl] at h
        cases h
        simp
      · rw [lookupA, if_neg hk] at h
        simp [ih h]

theorem lookupA_eq_of_mem {α : Type} {m : List (String × α)} {k : String} {v : α}
    (hnd : (m.map Prod.fst).Nodup) (h : (k, v) ∈ m) : lookupA m k = some v := by
  induction m with
  | nil => cases h
  | cons hd tl ih =>
      obtain ⟨k', v'⟩ := hd
      rcases List.mem_cons.mp h with heq | htl
      · cases heq
        rw [lookupA, if_pos rfl]
      · by_cases hk : k' = k
        · subst hk
          exfalso
          rw [List.map_cons, List.nodup_cons] at hnd
          exact hnd.1 (List.mem_map.mpr ⟨(k', v), htl, rfl⟩)
        · rw [lookupA, if_neg hk]
          rw [List.map_cons, List.nodup_cons] at hnd
          exact ih hnd.2 htl

theorem lookupA_eq_none_iff {α : Type} (m : List (String × α)) (k : String) :
    lookupA m k = none ↔ k ∉ m.map Prod.fst := by
  induction m with
  | nil => simp [lookupA]
  | cons hd tl ih =>
      obtain ⟨k', v'⟩ := hd
      by_cases hk : k' = k
      · subst hk
        simp [lookupA]
      · have hkk : ¬k = k' := fun h => hk h.symm
        simp [lookupA, hk, hkk, ih]

/-- Two association lists that are permutations of each other with unique
keys (as a `HashMap` guarantees) answer every lookup identically. -/
theorem lookupA_perm {α : Type} {m1 m2 : List (String × α)} (hp : m1.Perm m2)
    (hnd : (m1.map Prod.fst).Nodup) (k : String) :
    lookupA m1 k = lookupA m2 k := by
  cases h1 : lookupA m1 k with
  | some v =>
      have hmem2 : (k, v) ∈ m2 := hp.mem_iff.mp (lookupA_mem h1)
      have hnd2 : (m2.map Prod.fst).Nodup := (hp.map Prod.fst).nodup hnd
      exact (lookupA_eq_of_mem hnd2 hmem2).symm
  | none =>
      symm
      rw [lookupA_eq_none_iff] at h1 ⊢
      intro hc
      exact h1 ((hp.map Prod.fst).mem_iff.mpr hc)

theorem depsOf_congr {m1 m2 : RevMap}
    (h : ∀ k, lookupA m1 k = lookupA m2 k) (n : String) :
    depsOf m1 n = depsOf m2 n := by
  unfold depsOf
  rw [h n]

theorem entryCost_congr {m1 m2 : RevMap}
    (h : ∀ k, lookupA m1 k = lookupA m2 k) (tb : List String) (x : String) :
    entryCost m1 tb x = entryCost m2 tb x := by
  unfold entryCost
  rw [depsOf_congr h]

theorem phi_congr {m1 m2 : RevMap}
    (h : ∀ k, lookupA m1 k = lookupA m2 k) (st : GState) :
    phi m1 st = phi m2 st := by
  unfold phi
  congr 1
  exact List.map_congr_left (fun x _ => entryCost_congr h st.toBuild x)

theorem stepOne_congr {m1 m2 : RevMap}
    (h : ∀ k, lookupA m1 k = lookupA m2 k) (st : GState) (pkg : String) :
    stepOne m1 st pkg = stepOne m2 st pkg := by
  unfold stepOne
  rw [h pkg]

theorem expandLoop_congr {m1 m2 : RevMap}
    (h : ∀ k, lookupA m1 k = lookupA m2 k) :
    ∀ (fuel : Nat) (st : GState), expandLoop m1 fuel st = expandLoop m2 fuel st := by
  intro fuel
  induction fuel with
  | zero => intro st; rfl
  | succ f ih =>
      intro st
      cases hq : st.queue with
      | nil =>
          rw [expandLoop_of_queue_nil m1 _ st hq, expandLoop_of_queue_nil m2 _ st hq]
      | cons pkg rest =>
          have e1 : expandLoop m1 (f + 1) st =
              expandLoop m1 f (stepOne m1 { st with queue := rest } pkg) := by
            simp [expandLoop, hq]
          have e2 : expandLoop m2 (f + 1) st =
              expandLoop m2 f (stepOne m2 { st with queue := rest } pkg) := by
            simp [expandLoop, hq]
          rw [e1, e2, stepOne_congr h, ih]

theorem runExpansion_congr {m1 m2 : RevMap}
    (h : ∀ k, lookupA m1 k = lookupA m2 k) (seeds : List String) :
    runExpansion m1 seeds = runExpansion m2 seeds := by
  unfold runExpansion
  rw [phi_congr h, expandLoop_congr h]

theorem runFromMap_congr (dbs : List SyncDb) {m1 m2 : RevMap}
    (h : ∀ k, lookupA m1 k = lookupA m2 k) (seeds : List String) :
    runFromMap dbs m1 seeds = runFromMap dbs m2 seeds := by
  unfold runFromMap
  rw [runExpansion_congr h]

/-! ### Error paths -/

theorem find_package_anywhere_error (dbs : List SyncDb) (n : String)
    (e : MainError) (h : find_package_anywhere dbs n = .error e) :
    e = .pkgNotFound := by
  induction dbs with
  | nil =>
      rw [find_package_anywhere] at h
      cases h
      rfl
  | cons db rest ih =>
      rw [find_package_anywhere] at h
      cases hdb : dbPkg db n with
      | some p => rw [hdb] at h; cases h
      | none => rw [hdb] at h; exact ih h

theorem find_package_anywhere_unresolved (dbs : List SyncDb) (s : String)
    (h : ∀ db ∈ dbs, dbPkg db s = none) :
    find_package_anywhere dbs s = .error .pkgNotFound := by
  induction dbs with
  | nil => rfl
  | cons db rest ih =>
      rw [find_package_anywhere, h db (by simp)]
      exact ih (fun d hd => h d (by simp [hd]))

theorem validateSeeds_unresolved (dbs : List SyncDb) :
    ∀ seeds : List String, (∃ s ∈ seeds, ∀ db ∈ dbs, dbPkg db s = none) →
      validateSeeds dbs seeds = .error .pkgNotFound := by
  intro seeds
  induction seeds with
  | nil =>
      rintro ⟨s, hs, _⟩
      cases hs
  | cons a rest ih =>
      rintro ⟨s, hs, hunres⟩
      rw [validateSeeds]
      cases hf : find_package_anywhere dbs a with
      | error e =>
          rw [find_package_anywhere_error dbs a e hf]
      | ok p =>
          rcases List.mem_cons.mp hs with hsa | hsr
          · subst hsa
            rw [find_package_anywhere_unresolved dbs s hunres] at hf
            cases hf
          · exact ih ⟨s, hsr, hunres⟩

theorem validateSeeds_only_pkgNotFound (dbs : List SyncDb) :
    ∀ (seeds : List String) (e : MainError),
      validateSeeds dbs seeds = .error e → e = .pkgNotFound := by
  intro seeds
  induction seeds with
  | nil => intro e h; cases h
  | cons a rest ih =>
      intro e h
      rw [validateSeeds] at h
      cases hf : find_package_anywhere dbs a with
      | error e' =>
          rw [hf] at h
          cases h
          exact find_package_anywhere_error dbs a _ hf
      | ok p =>
          rw [hf] at h
          exact ih e h

theorem scanDbs_err (dbs : List SyncDb) (m : RevMap)
    (h : ∃ db ∈ dbs, db.pkgs = none) :
    ∃ name, scanDbs dbs m = .error (.corpusUnavailable name) := by
  induction dbs generalizing m with
  | nil =>
      obtain ⟨db, hdb, _⟩ := h
      cases hdb
  | cons db rest ih =>
      cases hdb : db.pkgs with
      | none => exact ⟨db.dbname, by rw [scanDbs, hdb]⟩
      | some ps =>
          obtain ⟨d, hd, hdnone⟩ := h
          rcases List.mem_cons.mp hd with hdd | hdr
          · subst hdd
            rw [hdb] at hdnone
            cases hdnone
          · obtain ⟨name, hname⟩ := ih (ps.foldl indexPackage m) ⟨d, hdr, hdnone⟩
            exact ⟨name, by rw [scanDbs, hdb]; exact hname⟩

/-! ### Concrete fixtures -/

/-- A corpus with the dependency chain B depends on A, C depends on B. -/
def chainCorpus : List SyncDb :=
  [{ dbname := "core",
     pkgs := some [
       { name := "A", base := none, depends := [], makedepends := [] },
       { name := "B", base := none, depends := ["A"], makedepends := [] },
       { name := "C", base := none, depends := ["B"], makedepends := [] } ] }]

/-- The spec's §8 example corpus: bash and coreutils depend on glibc, vim
depends on bash. -/
def glibcCorpus : List SyncDb :=
  [{ dbname := "core",
     pkgs := some [
       { name := "glibc", base := none, depends := [], makedepends := [] },
       { name := "bash", base := none, depends := ["glibc"], makedepends := [] },
       { name := "coreutils", base := none, depends := ["glibc"], makedepends := [] },
       { name := "vim", base := none, depends := ["bash"], makedepends := [] } ] }]

/-- A corpus whose single database cannot be enumerated. -/
def brokenCorpus : List SyncDb := [{ dbname := "core", pkgs := none }]

/-- A graph state that already holds the edge 0 → 1. -/
def edgeSt : GState :=
  { nodes := ["A", "B"], edges := [(0, 1)], cache := [("A", 0), ("B", 1)],
    toBuild := [], queue := [] }

/-! ### Claim theorems -/

/-- C1, counterexample: for the index where B depends on A and C depends on
B, with seed list [A], the report line for A is `A B C` — it does contain
C, contradicting the claim that transitive dependents never appear. -/
theorem c1_counterexample :
    reportLines (runExpansion [("A", ["B"]), ("B", ["C"])] ["A"]) ["A"]
        = [["A", "B", "C"]] ∧
    "C" ∈ (reportLines (runExpansion [("A", ["B"]), ("B", ["C"])] ["A"]) ["A"]).headI := by
  constructor
  · decide
  · decide

/-- C1 (amended): the graph produced by the expansion engine contains only
the seeds, their direct reverse-dependents, and the direct
reverse-dependents of those dependents — the expansion guard stops the
queue one level out, but edges to second-level dependents are still
inserted; third-level dependents never appear. For the chain index
A ↦ [B], B ↦ [C], C ↦ [D] with seed [A], the report line is `A B C`
(D excluded). -/
theorem c1_amended :
    (∀ (idx : RevMap) (seeds : List String) (x : String),
        x ∈ (runExpansion idx seeds).nodes → withinTwo idx seeds x) ∧
    reportLines (runExpansion [("A", ["B"]), ("B", ["C"]), ("C", ["D"])] ["A"]) ["A"]
        = [["A", "B", "C"]] := by
  constructor
  · intro idx seeds x hx
    exact (inv_runExpansion idx seeds).nodeLevel x hx
  · decide

/-- C1, witness: the amended theorem applied at the chain index, showing
the second-level dependent C is a graph node within two levels of seed A. -/
theorem c1_amended_witness :
    "C" ∈ (runExpansion [("A", ["B"]), ("B", ["C"])] ["A"]).nodes ∧
    withinTwo [("A", ["B"]), ("B", ["C"])] ["A"] "C" :=
  ⟨by decide, c1_amended.1 [("A", ["B"]), ("B", ["C"])] ["A"] "C" (by decide)⟩

/-- C2, counterexample: for the spec's own example corpus and seed [glibc]
the program prints `glibc coreutils bash vim ` — petgraph yields
neighbours in reverse insertion order and the second-level dependent vim
is reachable — not the claimed `glibc bash coreutils`. -/
theorem c2_counterexample :
    runMain glibcCorpus ["glibc"] = ("glibc coreutils bash vim \n", none) ∧
    (runMain glibcCorpus ["glibc"]).1 ≠ "glibc bash coreutils\n" ∧
    (runMain glibcCorpus ["glibc"]).1 ≠ "glibc bash coreutils \n" := by
  refine ⟨by decide, by decide, by decide⟩

/-- C2 (amended): the reporter emits exactly one line per seed, in the
caller's original seed order, each line starting with its own seed,
holding the node names in BFS order where a node's successors appear in
reverse edge-insertion order; for the concrete index
glibc ↦ [bash, coreutils], bash ↦ [vim] and seed [glibc] the line is
`glibc coreutils bash vim`. -/
theorem c2_amended :
    (∀ (idx : RevMap) (seeds : List String),
        (reportLines (runExpansion idx seeds) seeds).length = seeds.length) ∧
    (∀ (idx : RevMap) (seeds : List String) (i : Nat) (hlt : i < seeds.length),
        ((reportLines (runExpansion idx seeds) seeds).getD i []).headI = seeds[i]) ∧
    reportLines (runExpansion [("glibc", ["bash", "coreutils"]), ("bash", ["vim"])]
        ["glibc"]) ["glibc"] = [["glibc", "coreutils", "bash", "vim"]] := by
  refine ⟨reportLines_length, ?_, by decide⟩
  intro idx seeds i hlt
  rw [reportLines_eq_map, List.getD_eq_getElem?_getD, List.getElem?_map,
    List.getElem?_eq_getElem hlt]
  simp only [Option.map_some', Option.getD_some]
  exact lineFor_headI idx seeds seeds[i] (List.getElem_mem hlt)

/-- C2, witness: the amended theorem applied at a two-seed input: the
second report line belongs to the second seed. -/
theorem c2_amended_witness :
    ((reportLines (runExpansion [("X", ["Y"])] ["X", "W"]) ["X", "W"]).getD 1 []).headI
      = "W" :=
  c2_amended.2.1 [("X", ["Y"])] ["X", "W"] 1 (by decide)

/-- C3: with every database enumerable, the reverse-dependency index entry
for any name equals the spec-side occurrence list — one identity (base
name preferred over individual name) per dependency occurrence, runtime
and build-time declarations merged, duplicates kept — and the entry is
absent exactly when there is no occurrence. -/
theorem c3_index_content (dbs : List SyncDb) (m : RevMap)
    (hok : ∀ db ∈ dbs, db.pkgs ≠ none)
    (hm : get_reverse_deps_map dbs = .ok m) (key : String) :
    (lookupA m key).getD [] = specIndexEntries dbs key ∧
    (lookupA m key = none ↔ specIndexEntries dbs key = []) := by
  unfold get_reverse_deps_map at hm
  rw [scanDbs_ok dbs [] hok] at hm
  cases hm
  constructor
  · rw [lookupA_getD_foldl_indexPackage]
    simp [lookupA, specIndexEntries]
  · rw [lookupA_foldl_indexPackage_eq_none]
    simp [lookupA, specIndexEntries]

/-- C3, witness: the index built from the example corpus, evaluated at
`glibc`. -/
theorem c3_index_content_witness :
    (lookupA [("glibc", ["bash", "coreutils"]), ("bash", ["vim"])] "glibc").getD []
        = specIndexEntries glibcCorpus "glibc" ∧
    (lookupA [("glibc", ["bash", "coreutils"]), ("bash", ["vim"])] "glibc" = none ↔
        specIndexEntries glibcCorpus "glibc" = []) :=
  c3_index_content glibcCorpus _ (by decide) rfl "glibc"

/-- C4: when every database enumerates but some seed resolves in no
database, the run fails with `PkgNotFound` (alpm's error carries no
package name) and prints nothing — no report line for any seed. -/
theorem c4_invalid_seed (dbs : List SyncDb) (seeds : List String)
    (hok : ∀ db ∈ dbs, db.pkgs ≠ none)
    (hbad : ∃ s ∈ seeds, ∀ db ∈ dbs, dbPkg db s = none) :
    runMain dbs seeds = ("", some .pkgNotFound) := by
  unfold runMain get_reverse_deps_map
  rw [scanDbs_ok dbs [] hok]
  unfold runFromMap
  rw [validateSeeds_unresolved dbs seeds hbad]

/-- C4, witness: a valid seed followed by an unresolvable one still aborts
with `PkgNotFound` and empty output. -/
theorem c4_invalid_seed_witness :
    runMain glibcCorpus ["glibc", "nosuchpkg"] = ("", some .pkgNotFound) :=
  c4_invalid_seed glibcCorpus ["glibc", "nosuchpkg"] (by decide)
    ⟨"nosuchpkg", by decide, by decide⟩

/-- C5: at every point during and after expansion (any fuel prefix of the
loop) the edge list holds at most one edge per ordered node pair, and
inserting an edge that already exists leaves the graph unchanged. -/
theorem c5_no_duplicate_edges (idx : RevMap) (seeds : List String) (fuel : Nat) :
    (expandLoop idx fuel (initState seeds)).edges.Nodup ∧
    (∀ (st : GState) (root : Nat) (d : String),
      (root, (getOrAddNode st d).1) ∈ (getOrAddNode st d).2.edges →
        addDepEdge root st d = (getOrAddNode st d).2) :=
  ⟨(inv_expandLoop idx seeds fuel).edgesNodup,
   fun st root d h => addDepEdge_eq_pos root st d h⟩

/-- C5, witness: re-inserting the already-present edge 0 → 1 is a no-op. -/
theorem c5_no_duplicate_edges_witness :
    addDepEdge 0 edgeSt "B" = (getOrAddNode edgeSt "B").2 :=
  (c5_no_duplicate_edges [] [] 0).2 edgeSt 0 "B" (by decide)

/-- C6: at every point during and after expansion the node-label list is
duplicate-free — exactly one node is ever created per name — and the
name→node cache answers `i` exactly when node `i` carries that name, so a
repeated reference returns the original node. -/
theorem c6_node_identity (idx : RevMap) (seeds : List String) (fuel : Nat) :
    (expandLoop idx fuel (initState seeds)).nodes.Nodup ∧
    CacheOk (expandLoop idx fuel (initState seeds)) :=
  ⟨(inv_expandLoop idx seeds fuel).nodesNodup, (inv_expandLoop idx seeds fuel).cacheOk⟩

/-- C7: for every finite index and seed list the worklist loop terminates:
with fuel `phi` the queue is empty, any larger fuel gives the same final
state, and in particular for mutually-dependent seeds no duplicate node
or edge is created. -/
theorem c7_termination (idx : RevMap) (seeds : List String) :
    (runExpansion idx seeds).queue = [] ∧
    (∀ fuel : Nat, phi idx (initState seeds) ≤ fuel →
        expandLoop idx fuel (initState seeds) = runExpansion idx seeds) ∧
    (runExpansion idx seeds).nodes.Nodup ∧
    (runExpansion idx seeds).edges.Nodup := by
  refine ⟨runExpansion_queue_nil idx seeds, ?_, (inv_runExpansion idx seeds).nodesNodup,
    (inv_runExpansion idx seeds).edgesNodup⟩
  intro fuel hf
  unfold runExpansion
  exact expandLoop_congr_fuel idx fuel (phi idx (initState seeds)) (initState seeds)
    hf le_rfl

/-- C7, witness: two mutually dependent seeds; the loop stabilises at any
fuel beyond the measure and its queue drains. -/
theorem c7_termination_witness :
    expandLoop [("A", ["B"]), ("B", ["A"])] 10 (initState ["A", "B"])
        = runExpansion [("A", ["B"]), ("B", ["A"])] ["A", "B"] ∧
    (runExpansion [("A", ["B"]), ("B", ["A"])] ["A", "B"]).queue = [] :=
  ⟨(c7_termination [("A", ["B"]), ("B", ["A"])] ["A", "B"]).2.1 10 (by decide),
   (c7_termination [("A", ["B"]), ("B", ["A"])] ["A", "B"]).1⟩

/-- C8: a seed whose name has no entry in the reverse-dependency index gets
a report line holding exactly its own name. -/
theorem c8_empty_dependents (idx : RevMap) (seeds : List String) (i : Nat)
    (hlt : i < seeds.length) (hnone : lookupA idx seeds[i] = none) :
    (reportLines (runExpansion idx seeds) seeds).getD i [] = [seeds[i]] := by
  have hsmem : seeds[i] ∈ seeds := List.getElem_mem hlt
  obtain ⟨j, hj, hnode⟩ := seed_cached idx seeds _ hsmem
  rw [reportLines_eq_map, List.getD_eq_getElem?_getD, List.getElem?_map,
    List.getElem?_eq_getElem hlt]
  simp only [Option.map_some', Option.getD_some]
  unfold lineFor
  rw [hj]
  have hne : (runExpansion idx seeds).nodes.length ≠ 0 := by
    have := (List.getElem?_eq_some.mp hnode).1
    omega
  show (bfsFrom (runExpansion idx seeds) j).map
      (fun nx => (runExpansion idx seeds).nodes.getD nx "") = [seeds[i]]
  rw [bfsFrom_no_out _ j hne (no_out_edges_of_no_entry idx seeds seeds[i] j hj hnone)]
  simp only [List.map_cons, List.map_nil]
  rw [List.getD_eq_getElem?_getD, hnode]
  rfl

/-- C8, witness: seed X has no index entry; its line is just `X`. -/
theorem c8_empty_dependents_witness :
    (reportLines (runExpansion [("A", ["B"])] ["X", "A"]) ["X", "A"]).getD 0 [] = ["X"] :=
  c8_empty_dependents [("A", ["B"])] ["X", "A"] 0 (by decide) (by decide)

/-- C9: the pipeline's output is a pure function of corpus and seed order;
the only run-to-run nondeterminism in the source is the `HashMap`'s
internal ordering, and any two association-list representations of the
same index (key-unique permutations of each other) yield byte-identical
output. -/
theorem c9_determinism (dbs : List SyncDb) (m1 m2 : RevMap) (seeds : List String)
    (hperm : m1.Perm m2) (hnd : (m1.map Prod.fst).Nodup) :
    runFromMap dbs m1 seeds = runFromMap dbs m2 seeds :=
  runFromMap_congr dbs (fun k => lookupA_perm hperm hnd k) seeds

/-- C9, witness: the example index in two different internal orders prints
the same bytes. -/
theorem c9_determinism_witness :
    runFromMap glibcCorpus [("glibc", ["bash", "coreutils"]), ("bash", ["vim"])] ["glibc"]
      = runFromMap glibcCorpus [("bash", ["vim"]), ("glibc", ["bash", "coreutils"])]
          ["glibc"] :=
  c9_determinism glibcCorpus [("glibc", ["bash", "coreutils"]), ("bash", ["vim"])]
    [("bash", ["vim"]), ("glibc", ["bash", "coreutils"])] ["glibc"]
    (by decide) (by decide)

/-- C10: the index is built before seed validation, so with an
un-enumerable database and an unresolvable seed the run fails with the
corpus-enumeration error, not `PkgNotFound`, and prints nothing. -/
theorem c10_corpus_error_first (dbs : List SyncDb) (seeds : List String)
    (hbad : ∃ db ∈ dbs, db.pkgs = none)
    (hseed : ∃ s ∈ seeds, ∀ db ∈ dbs, dbPkg db s = none) :
    ∃ name, runMain dbs seeds = ("", some (.corpusUnavailable name)) := by
  obtain ⟨name, hname⟩ := scanDbs_err dbs [] hbad
  refine ⟨name, ?_⟩
  unfold runMain get_reverse_deps_map
  rw [hname]

/-- C10, witness: a broken database plus an unresolvable seed reports the
corpus error. -/
theorem c10_corpus_error_first_witness :
    ∃ name, runMain brokenCorpus ["nosuch"] = ("", some (.corpusUnavailable name)) :=
  c10_corpus_error_first brokenCorpus ["nosuch"]
    ⟨{ dbname := "core", pkgs := none }, by decide, rfl⟩
    ⟨"nosuch", by decide, by decide⟩

end Rebuilder
